import Mathlib

/-!
Shallow embedding of the EPUB chapter-listing, text-extraction and
content-search core of `pkg/calibre/epub.go` (calibre-mcp), together with
theorems settling the specification claims about it.

Strings are modelled as `List Char` (`Str`); Go's byte-indexed operations on
the ASCII subset coincide with the char-indexed model, and the case folding
`strings.ToLower` is modelled rune-by-rune (`lowerChar`), which is
length-preserving as it is for ASCII input.

The XML and HTML parsers (`encoding/xml`, `golang.org/x/net/html`) are
external libraries; each archive file therefore carries the (deterministic)
result of parsing its bytes under each parser (`FileContent`), and the
repository's own post-parse algorithms are embedded in full.
-/

namespace CalibreMCP

abbrev Str := List Char

/-- Coerce a Lean string literal to the `List Char` model. -/
def str (s : String) : Str := s.toList

/-! ## Go `strings` primitives used by the source -/

/-- `startsWithL s pat`: `pat` occurs at the beginning of `s`. -/
def startsWithL : Str → Str → Bool
  | _, [] => true
  | [], _ :: _ => false
  | c :: s, d :: p => c = d && startsWithL s p

/-- Go `strings.Index(s, pat)` (as an `Option` instead of `-1`):
index of the first occurrence of `pat` in `s`. -/
def indexOfSub : Str → Str → Option Nat
  | [], pat => if pat = [] then some 0 else none
  | c :: rest, pat =>
    if startsWithL (c :: rest) pat then some 0
    else (indexOfSub rest pat).map (· + 1)

/-- Go `strings.Contains(s, pat)`. -/
def containsSub (s pat : Str) : Bool := (indexOfSub s pat).isSome

/-- Go `strings.Split(s, sep)` for a one-character separator.
`Split("", sep) = [""]`. -/
def splitChar (sep : Char) : Str → List Str
  | [] => [[]]
  | c :: rest =>
    let r := splitChar sep rest
    if c = sep then [] :: r
    else
      match r with
      | [] => [[c]]
      | h :: t => (c :: h) :: t

/-- Rune-wise lower casing (`unicode.ToLower` on the ASCII letters). -/
def lowerChar (c : Char) : Char :=
  if 'A' ≤ c ∧ c ≤ 'Z' then Char.ofNat (c.toNat + 32) else c

/-- Go `strings.ToLower`, rune by rune. -/
def lowerStr (s : Str) : Str := s.map lowerChar

/-- Fuel-indexed body of `strings.ReplaceAll`: left-to-right,
non-overlapping replacement. Each step consumes at least one character, so
any fuel of at least `s.length` computes the function
(`replaceAllFuel_congr`); the out-of-fuel branch is never reached from
`replaceAll`. -/
def replaceAllFuel (pat rep : Str) : Nat → Str → Str
  | _, [] => []
  | 0, c :: rest => c :: rest
  | n + 1, c :: rest =>
    if pat ≠ [] ∧ startsWithL (c :: rest) pat then
      rep ++ replaceAllFuel pat rep n ((c :: rest).drop pat.length)
    else
      c :: replaceAllFuel pat rep n rest

/-- Go `strings.ReplaceAll(s, pat, rep)`.
Every pattern passed by the source is a non-empty literal. -/
def replaceAll (s pat rep : Str) : Str := replaceAllFuel pat rep s.length s

/-- Characters counted as white space by `strings.TrimSpace`
(`unicode.IsSpace` on the Latin-1 range). -/
def isSpaceChar (c : Char) : Bool :=
  c = ' ' ∨ c = '\t' ∨ c = '\n' ∨ c = '\x0b' ∨ c = '\x0c' ∨ c = '\r' ∨
  c = '\x85' ∨ c = '\xa0'

/-- Drop leading white space. -/
def ltrim (s : Str) : Str := s.dropWhile isSpaceChar

/-- Drop trailing white space. -/
def rtrim (s : Str) : Str := ((s.reverse).dropWhile isSpaceChar).reverse

/-- Go `strings.TrimSpace`. -/
def trimSpaceStr (s : Str) : Str := rtrim (ltrim s)

/-- Go `strings.TrimSuffix(s, suf)`. -/
def trimSuffixStr (s suf : Str) : Str :=
  if suf.length ≤ s.length ∧ s.drop (s.length - suf.length) = suf then
    s.take (s.length - suf.length)
  else s

/-! ## Go `path/filepath` primitives (Unix separator) -/

/-- Index of the last occurrence of `c` in `s`. -/
def lastIndexOfChar (c : Char) (s : Str) : Option Nat :=
  if c ∈ s then some (s.length - 1 - s.reverse.indexOf c) else none

/-- One step of `path.Clean`'s element processing: `""` and `"."` elements
are dropped, `".."` pops a previous element (or is kept / dropped at the
front of a relative / rooted path), anything else is kept. -/
def cleanCore (rooted : Bool) : List Str → List Str → List Str
  | acc, [] => acc.reverse
  | acc, seg :: rest =>
    if seg = [] ∨ seg = ['.'] then cleanCore rooted acc rest
    else if seg = ['.', '.'] then
      match acc with
      | top :: below =>
        if top = ['.', '.'] then cleanCore rooted (seg :: top :: below) rest
        else cleanCore rooted below rest
      | [] => if rooted then cleanCore rooted [] rest else cleanCore rooted [seg] rest
    else cleanCore rooted (seg :: acc) rest

/-- Go `path.Clean` / `filepath.Clean` with `/` separator. -/
def filepathClean (p : Str) : Str :=
  if p = [] then ['.']
  else
    let rooted := p.head? = some '/'
    let out := cleanCore rooted [] (splitChar '/' p)
    if out = [] then (if rooted then ['/'] else ['.'])
    else (if rooted then ['/'] else []) ++ List.intercalate ['/'] out

/-- Go `filepath.Join(a, b)`: empty elements are ignored, the rest are
joined with `/` and cleaned; all-empty input yields `""`. -/
def filepathJoin (a b : Str) : Str :=
  let parts := [a, b].filter (· ≠ [])
  if parts = [] then [] else filepathClean (List.intercalate ['/'] parts)

/-- Go `filepath.Dir`: everything up to the final separator, cleaned;
`Dir` of a separator-free path is `"."`. -/
def filepathDir (p : Str) : Str :=
  match lastIndexOfChar '/' p with
  | none => ['.']
  | some i => filepathClean (p.take (i + 1))

/-- Go `filepath.Base`: last element after dropping trailing separators;
`Base "" = "."`, `Base` of all-separators is `"/"`. -/
def filepathBase (p : Str) : Str :=
  if p = [] then ['.']
  else
    let q := (p.reverse.dropWhile (· = '/')).reverse
    if q = [] then ['/']
    else
      match lastIndexOfChar '/' q with
      | none => q
      | some i => q.drop (i + 1)

/-- Go `filepath.Ext`: the suffix of the final element starting at its last
dot, `""` if the final element has no dot. -/
def filepathExt (p : Str) : Str :=
  let fin := p.reverse.takeWhile (fun c => c ≠ '/')
  match fin.findIdx? (· = '.') with
  | none => []
  | some j => (fin.take (j + 1)).reverse

/-! ## Data model (`epub.go` types) -/

/-- Manifest `<item>`. -/
structure Item where
  id : Str
  href : Str
  mediaType : Str
  properties : Str
deriving DecidableEq

/-- Spine `<itemref>`. -/
structure Itemref where
  idref : Str
deriving DecidableEq

structure Spine where
  itemrefs : List Itemref
deriving DecidableEq

structure Manifest where
  items : List Item
deriving DecidableEq

structure Package where
  version : Str
  manifest : Manifest
  spine : Spine
deriving DecidableEq

structure Rootfile where
  path : Str
deriving DecidableEq

structure Container where
  rootfiles : List Rootfile
deriving DecidableEq

structure NavLabel where
  text : Str
deriving DecidableEq

structure Content where
  src : Str
deriving DecidableEq

structure NavPoint where
  navLabel : NavLabel
  content : Content
deriving DecidableEq

structure NavMap where
  navPoints : List NavPoint
deriving DecidableEq

structure NCX where
  navMap : NavMap
deriving DecidableEq

/-- A node of the tree produced by `html.Parse` (`x/net/html`):
document root, element with attributes, or text. -/
inductive HtmlNode where
  | document (children : List HtmlNode)
  | element (tag : Str) (attrs : List (Str × Str)) (children : List HtmlNode)
  | textNode (s : Str)

structure Chapter where
  index : Nat
  title : Str
  href : Str
deriving DecidableEq

structure SearchMatch where
  chapterIndex : Nat
  chapterTitle : Str
  snippet : Str
deriving DecidableEq

/-- The parse results of one archive entry's bytes under the external
parsers the source hands them to (`xml.Unmarshal` twice, `html.Parse`),
plus the raw bytes as text. `none` models a parse error. -/
structure FileContent where
  asContainer : Option Container := none
  asPackage : Option Package := none
  asNcx : Option NCX := none
  asHtml : Option HtmlNode := none
  asText : Str := []

/-- An opened EPUB archive: entry name to content, exact-name lookup. -/
structure EpubDoc where
  files : List (Str × FileContent)

/-- `zip.Reader.Open`: the first entry with exactly the given name. -/
def openEntry (d : EpubDoc) (p : Str) : Option FileContent :=
  (d.files.find? (fun f => f.1 = p)).map Prod.snd

/-! ## Go map model: one binding per key, last write wins -/

/-- Write `m[k] = v` into an association list holding one binding per key. -/
def mapInsert (k v : Str) : List (Str × Str) → List (Str × Str)
  | [] => [(k, v)]
  | (k2, v2) :: rest =>
    if k2 = k then (k, v) :: rest else (k2, v2) :: mapInsert k v rest

/-- Read `m[k]`. -/
def mapLookup (k : Str) : List (Str × Str) → Option Str
  | [] => none
  | (k2, v2) :: rest => if k2 = k then some v2 else mapLookup k rest

/-! ## TOC parsing (`parseNcxTOC`, `parseNavTOC`, `extractText`) -/

/-- Strip a `#fragment` from a TOC target (`src[:Index(src, "#")]`). -/
def stripFrag (s : Str) : Str := s.takeWhile (fun c => c ≠ '#')

/-- `parseNcxTOC`'s loop body over the parsed NCX: map each nav point's
fragment-stripped content source to its label text, last write wins. -/
def parseNcxTOC (ncx : NCX) : List (Str × Str) :=
  ncx.navMap.navPoints.foldl
    (fun m np => mapInsert (stripFrag np.content.src) np.navLabel.text m) []

/-- Whether an attribute list marks a `nav` element as the TOC:
some attribute keyed `type` or `epub:type` whose value contains `toc`. -/
def isNavTocAttrs (attrs : List (Str × Str)) : Bool :=
  attrs.any (fun a =>
    (a.1 = str "type" ∨ a.1 = str "epub:type") && containsSub a.2 (str "toc"))

mutual
/-- `findNav`: first (pre-order) `nav` element marked as the TOC. -/
def findNav : HtmlNode → Option HtmlNode
  | .textNode _ => none
  | .document cs => findNavList cs
  | .element tag attrs cs =>
    if tag = str "nav" ∧ isNavTocAttrs attrs then some (.element tag attrs cs)
    else findNavList cs

def findNavList : List HtmlNode → Option HtmlNode
  | [] => none
  | c :: cs =>
    match findNav c with
    | some n => some n
    | none => findNavList cs
end

mutual
/-- `extractText` (the HTML-node one): concatenated text descendants. -/
def extractText : HtmlNode → Str
  | .textNode s => s
  | .document cs => extractTextList cs
  | .element _ _ cs => extractTextList cs

def extractTextList : List HtmlNode → Str
  | [] => []
  | c :: cs => extractText c ++ extractTextList cs
end

/-- First `href` attribute of an anchor. -/
def findHrefAttr (attrs : List (Str × Str)) : Str :=
  match attrs.find? (fun a => a.1 = str "href") with
  | some a => a.2
  | none => []

mutual
/-- `parseList`: pre-order walk collecting each anchor's fragment-stripped
target and visible text (non-empty text only) into the map. -/
def parseListNode (m : List (Str × Str)) : HtmlNode → List (Str × Str)
  | .textNode _ => m
  | .document cs => parseListNodes m cs
  | .element tag attrs cs =>
    let m1 :=
      if tag = str "a" then
        let href := findHrefAttr attrs
        if href ≠ [] then
          let h := stripFrag href
          let text := extractTextList cs
          if text ≠ [] then mapInsert h text m else m
        else m
      else m
    parseListNodes m1 cs

def parseListNodes (m : List (Str × Str)) : List HtmlNode → List (Str × Str)
  | [] => m
  | c :: cs => parseListNodes (parseListNode m c) cs
end

/-- `parseNavTOC` after `html.Parse`: find the TOC `nav`, then collect the
anchors below it. -/
def parseNavTOC (doc : HtmlNode) : Except Str (List (Str × Str)) :=
  match findNav doc with
  | none => .error (str "could not find a nav item in the Nav TOC")
  | some nav =>
    match nav with
    | .element _ _ cs => .ok (parseListNodes [] cs)
    | _ => .ok []

/-! ## `GetEPUBChapters` -/

/-- A manifest item the TOC scan matches: `properties` containing `nav`,
or the NCX media type. -/
def isTocCandidate (item : Item) : Bool :=
  containsSub item.properties (str "nav") ||
  item.mediaType = str "application/x-dtbncx+xml"

/-- The manifest loop's TOC selection (`tocItem = &item` with no break):
the last matching item survives. -/
def findTocScan (items : List Item) : Option Item :=
  items.foldl (fun acc item => if isTocCandidate item then some item else acc)
    none

/-- The manifest loop's href map: item id to href joined onto the OPF
directory. -/
def buildHrefMap (opfDir : Str) (items : List Item) : List (Str × Str) :=
  items.foldl (fun m item => mapInsert item.id (filepathJoin opfDir item.href) m)
    []

/-- Dispatch on the selected TOC item's media type: NCX parse for the
dedicated media type, nav-document parse otherwise. -/
def parseTocOf (item : Item) (fc : FileContent) : Except Str (List (Str × Str)) :=
  if item.mediaType = str "application/x-dtbncx+xml" then
    match fc.asNcx with
    | none => .error (str "failed to parse the NCX TOC")
    | some ncx => .ok (parseNcxTOC ncx)
  else
    match fc.asHtml with
    | none => .error (str "failed to parse the Nav TOC")
    | some tree => parseNavTOC tree

/-- Re-key the raw TOC map by joining each source onto the TOC file's own
directory (`titleMap[filepath.Join(tocDir, src)] = title`). -/
def resolveTitleMap (tocDir : Str) (tocMap : List (Str × Str)) :
    List (Str × Str) :=
  tocMap.foldl (fun m p => mapInsert (filepathJoin tocDir p.1) p.2 m) []

/-- Fallback chapter title: final path element with its extension stripped. -/
def fallbackTitle (href : Str) : Str :=
  let base := filepathBase href
  trimSuffixStr base (filepathExt base)

/-- The spine loop: for each itemref (at spine position `i`), resolve its
manifest href or skip, compute the fallback title, override it with a
non-empty TOC title, and emit `Chapter i title href`. -/
def buildChapters (hrefMap titleMap : List (Str × Str))
    (itemrefs : List Itemref) : List Chapter :=
  itemrefs.enum.filterMap (fun p =>
    match mapLookup p.2.idref hrefMap with
    | none => none
    | some href =>
      let fb := fallbackTitle href
      let title :=
        match mapLookup href titleMap with
        | some t => if t ≠ [] then t else fb
        | none => fb
      some ⟨p.1, title, href⟩)

/-- Container and package phase of `GetEPUBChapters`: read and parse
`META-INF/container.xml`, take the first rootfile, read and parse the OPF.
Returns the OPF path and the parsed package. -/
def parsedPackage (d : EpubDoc) : Except Str (Str × Package) :=
  match openEntry d (str "META-INF/container.xml") with
  | none => .error (str "failed to open container.xml")
  | some cf =>
    match cf.asContainer with
    | none => .error (str "failed to parse container.xml")
    | some container =>
      match container.rootfiles with
      | [] => .error (str "no rootfile found")
      | rf :: _ =>
        match openEntry d rf.path with
        | none => .error (str "failed to open OPF")
        | some pf =>
          match pf.asPackage with
          | none => .error (str "failed to parse OPF")
          | some pkg => .ok (rf.path, pkg)

/-- `GetEPUBChapters` from the opened archive onward. -/
def GetEPUBChapters (d : EpubDoc) : Except Str (List Chapter) :=
  match parsedPackage d with
  | .error e => .error e
  | .ok (opfPath, pkg) =>
    let opfDir := filepathDir opfPath
    let hrefMap := buildHrefMap opfDir pkg.manifest.items
    match findTocScan pkg.manifest.items with
    | none => .error (str "no TOC found")
    | some tocItem =>
      let tocHref := filepathJoin opfDir tocItem.href
      let tocDir := filepathDir tocHref
      match openEntry d tocHref with
      | none => .error (str "could not open TOC")
      | some tf =>
        match parseTocOf tocItem tf with
        | .error e => .error e
        | .ok tocMap =>
          .ok (buildChapters hrefMap (resolveTitleMap tocDir tocMap)
            pkg.spine.itemrefs)

/-! ## `GetEPUBChapterContent` and `extractTextFromHTML` -/

/-- Fuel-indexed body of the tag-stripping bracket scan: while the text
contains both `<` and `>`, cut from the first `<` through the first `>`
when the `<` comes first, otherwise stop. Each iteration removes at least
two characters, so any fuel of at least `s.length` computes the loop's
limit (`stripTagsFuel_congr`). -/
def stripTagsFuel : Nat → Str → Str
  | 0, s => s
  | n + 1, s =>
    if '<' ∈ s ∧ '>' ∈ s then
      let start := s.indexOf '<'
      let stop := s.indexOf '>'
      if start < stop then stripTagsFuel n (s.take start ++ s.drop (stop + 1))
      else s
    else s

/-- The tag-stripping bracket scan of `extractTextFromHTML`. -/
def stripTags (s : Str) : Str := stripTagsFuel s.length s

/-- Trim every line, drop the blank ones, join with single newlines. -/
def cleanLines (s : Str) : Str :=
  List.intercalate (str "\n")
    (((splitChar '\n' s).map trimSpaceStr).filter (fun l => l ≠ []))

/-- `extractTextFromHTML`: block-boundary replacements, bracket-scan tag
stripping, entity decoding, whitespace cleanup — in source order. -/
def extractTextFromHTML (html0 : Str) : Str :=
  let text := replaceAll html0 (str "<br>") (str "\n")
  let text := replaceAll text (str "<br/>") (str "\n")
  let text := replaceAll text (str "<br />") (str "\n")
  let text := replaceAll text (str "<p>") []
  let text := replaceAll text (str "</p>") (str "\n")
  let text := replaceAll text (str "<div>") []
  let text := replaceAll text (str "</div>") (str "\n")
  let text := replaceAll text (str "<h1>") []
  let text := replaceAll text (str "</h1>") (str "\n")
  let text := replaceAll text (str "<h2>") []
  let text := replaceAll text (str "</h2>") (str "\n")
  let text := replaceAll text (str "<h3>") []
  let text := replaceAll text (str "</h3>") (str "\n")
  let text := replaceAll text (str "<h4>") []
  let text := replaceAll text (str "</h4>") (str "\n")
  let text := replaceAll text (str "<h5>") []
  let text := replaceAll text (str "</h5>") (str "\n")
  let text := replaceAll text (str "<h6>") []
  let text := replaceAll text (str "</h6>") (str "\n")
  let text := stripTags text
  let text := replaceAll text (str "&nbsp;") (str " ")
  let text := replaceAll text (str "&amp;") (str "&")
  let text := replaceAll text (str "&lt;") (str "<")
  let text := replaceAll text (str "&gt;") (str ">")
  let text := replaceAll text (str "&quot;") (str "\x22")
  let text := replaceAll text (str "&#39;") (str "\x27")
  cleanLines text

/-- `GetEPUBChapterContent` from the opened archive onward: rebuild the
chapter list, bounds-check the index, open the chapter's entry and extract
its text. -/
def GetEPUBChapterContent (d : EpubDoc) (chapterIndex : Int) :
    Except Str Str :=
  match GetEPUBChapters d with
  | .error e => .error e
  | .ok chapters =>
    if chapterIndex < 0 ∨ (chapters.length : Int) ≤ chapterIndex then
      .error (str "chapter index out of range")
    else
      match chapters.get? chapterIndex.toNat with
      | none => .error (str "chapter index out of range")
      | some chapter =>
        match openEntry d chapter.href with
        | none => .error (str "failed to open chapter")
        | some fc => .ok (extractTextFromHTML fc.asText)

/-! ## `SearchEPUBContent` -/

/-- Marker-pair snippet: `para[:pos] + ** + para[pos:pos+qlen] + ** +
para[pos+qlen:]`. -/
def mkSnippet (para : Str) (pos qlen : Nat) : Str :=
  para.take pos ++ str "**" ++ (para.drop pos).take qlen ++ str "**" ++
    para.drop (pos + qlen)

/-- The paragraph loop for one chapter's extracted content: each non-empty
paragraph containing the case-folded query contributes one match at the
first match position. -/
def searchParagraphs (query : Str) (ch : Chapter) (content : Str) :
    List SearchMatch :=
  (splitChar '\n' content).foldl
    (fun acc para =>
      if para = [] then acc
      else
        match indexOfSub (lowerStr para) (lowerStr query) with
        | none => acc
        | some pos =>
          acc ++ [⟨ch.index, ch.title, mkSnippet para pos query.length⟩])
    []

/-- The chapter loop of the recompute path: fetch each chapter's content
by its recorded index, skipping chapters whose fetch fails. -/
def computeMatches (d : EpubDoc) (query : Str) (chapters : List Chapter) :
    List SearchMatch :=
  chapters.foldl
    (fun acc ch =>
      match GetEPUBChapterContent d (Int.ofNat ch.index) with
      | .error _ => acc
      | .ok content => acc ++ searchParagraphs query ch content)
    []

structure CacheEntry where
  matchList : List SearchMatch
  timestamp : Nat
deriving DecidableEq

/-- The process-wide search cache, keyed by `(bookID, query)` (the
`"%d:%s"` key string is injective in the pair). -/
abbrev Cache := List ((Int × Str) × CacheEntry)

def cacheLookup (k : Int × Str) (c : Cache) : Option CacheEntry :=
  (c.find? (fun e => e.1 = k)).map Prod.snd

def cacheInsert (k : Int × Str) (v : CacheEntry) : Cache → Cache
  | [] => [(k, v)]
  | (k2, v2) :: rest =>
    if k2 = k then (k, v) :: rest else (k2, v2) :: cacheInsert k v rest

/-- Cache read with the freshness window: a hit only while the entry is
younger than one minute (`time.Since(entry.timestamp) < time.Minute`). -/
def cacheHit (c : Cache) (k : Int × Str) (now : Nat) :
    Option (List SearchMatch) :=
  match cacheLookup k c with
  | some entry => if now - entry.timestamp < 60 then some entry.matchList else none
  | none => none

/-- The pagination tail of `SearchEPUBContent`: positive offset at or past
the count returns empty, otherwise drop `offset` then truncate to a
positive `limit`. -/
def paginate (ms : List SearchMatch) (limit offset : Int) :
    List SearchMatch :=
  if offset > 0 ∧ (ms.length : Int) ≤ offset then []
  else
    let m1 := if offset > 0 then ms.drop offset.toNat else ms
    if limit > 0 ∧ limit < (m1.length : Int) then m1.take limit.toNat else m1

/-- `SearchEPUBContent` from the opened archive onward: cache lookup with
freshness check, full recompute on miss, write-back of the unpaginated
result, then pagination of the returned view. Returns the result list and
the cache after the call. -/
def SearchEPUBContent (d : EpubDoc) (cache : Cache) (now : Nat)
    (bookID : Int) (query : Str) (limit offset : Int) :
    Except Str (List SearchMatch × Cache) :=
  let key := (bookID, query)
  match cacheHit cache key now with
  | some ms => .ok (paginate ms limit offset, cache)
  | none =>
    match GetEPUBChapters d with
    | .error e => .error e
    | .ok chapters =>
      let ms := computeMatches d query chapters
      .ok (paginate ms limit offset, cacheInsert key ⟨ms, now⟩ cache)

/-- Spec-side description of the empty-query search result (claim C10):
one match per non-empty paragraph of each chapter's own readable entry,
the snippet being the paragraph with the marker pair around an empty span
at position 0. -/
def emptyQueryMatches (d : EpubDoc) (chapters : List Chapter) :
    List SearchMatch :=
  chapters.flatMap (fun c =>
    match openEntry d c.href with
    | none => []
    | some fc =>
      (splitChar '\n' (extractTextFromHTML fc.asText)).filterMap
        (fun para =>
          if para = [] then none
          else some ⟨c.index, c.title, str "****" ++ para⟩))

/-! ## Concrete example documents -/

/-- A nav document whose TOC `nav` element has no anchors. -/
def navTreeEmpty : HtmlNode :=
  .document [.element (str "html") []
    [.element (str "nav") [(str "epub:type", str "toc")] []]]

/-- A document whose spine starts with a dangling reference: the spine is
`[missing, c1]` and only `c1` is in the manifest. -/
def docDangling : EpubDoc :=
  ⟨[(str "META-INF/container.xml",
      { asContainer := some ⟨[⟨str "content.opf"⟩]⟩ }),
    (str "content.opf",
      { asPackage := some
          ⟨str "3.0",
           ⟨[⟨str "c1", str "c1.xhtml", str "application/xhtml+xml", str ""⟩,
             ⟨str "nav", str "nav.xhtml", str "application/xhtml+xml",
              str "nav"⟩]⟩,
           ⟨[⟨str "missing"⟩, ⟨str "c1"⟩]⟩⟩ }),
    (str "nav.xhtml", { asHtml := some navTreeEmpty }),
    (str "c1.xhtml", { asText := str "Hello world" })]⟩

/-- A document that parses but whose manifest has no TOC candidate. -/
def docNoToc : EpubDoc :=
  ⟨[(str "META-INF/container.xml",
      { asContainer := some ⟨[⟨str "content.opf"⟩]⟩ }),
    (str "content.opf",
      { asPackage := some
          ⟨str "3.0",
           ⟨[⟨str "c1", str "c1.xhtml", str "application/xhtml+xml",
              str ""⟩]⟩,
           ⟨[⟨str "c1"⟩]⟩⟩ }),
    (str "c1.xhtml", { asText := str "Hello world" })]⟩

/-- A document that parses with an empty manifest and empty spine. -/
def docEmptyManifest : EpubDoc :=
  ⟨[(str "META-INF/container.xml",
      { asContainer := some ⟨[⟨str "content.opf"⟩]⟩ }),
    (str "content.opf",
      { asPackage := some ⟨str "3.0", ⟨[]⟩, ⟨[]⟩⟩ })]⟩

/-- A document declaring two TOC candidates: a navigation document first,
an NCX item second, mapping the same chapter to different titles. -/
def docTwoTocs : EpubDoc :=
  ⟨[(str "META-INF/container.xml",
      { asContainer := some ⟨[⟨str "content.opf"⟩]⟩ }),
    (str "content.opf",
      { asPackage := some
          ⟨str "2.0",
           ⟨[⟨str "c1", str "c1.xhtml", str "application/xhtml+xml", str ""⟩,
             ⟨str "nav", str "nav.xhtml", str "application/xhtml+xml",
              str "nav"⟩,
             ⟨str "ncx", str "toc.ncx", str "application/x-dtbncx+xml",
              str ""⟩]⟩,
           ⟨[⟨str "c1"⟩]⟩⟩ }),
    (str "nav.xhtml",
      { asHtml := some (.document [.element (str "nav")
          [(str "epub:type", str "toc")]
          [.element (str "a") [(str "href", str "c1.xhtml")]
            [.textNode (str "NavTitle")]]]) }),
    (str "toc.ncx",
      { asNcx := some ⟨⟨[⟨⟨str "NcxTitle"⟩, ⟨str "c1.xhtml"⟩⟩]⟩⟩ })]⟩

/-- A document with a nav TOC whose manifest item list is the same as
`docTwoTocs` but with an empty spine. -/
def docEmptySpine : EpubDoc :=
  ⟨[(str "META-INF/container.xml",
      { asContainer := some ⟨[⟨str "content.opf"⟩]⟩ }),
    (str "content.opf",
      { asPackage := some
          ⟨str "3.0",
           ⟨[⟨str "nav", str "nav.xhtml", str "application/xhtml+xml",
              str "nav"⟩]⟩,
           ⟨[]⟩⟩ }),
    (str "nav.xhtml", { asHtml := some navTreeEmpty })]⟩

/-- A navigation-document manifest item (properties declare `nav`). -/
def navItemEx : Item :=
  ⟨str "nav", str "nav.xhtml", str "application/xhtml+xml", str "nav"⟩

/-- An NCX manifest item (navigation-control media type). -/
def ncxItemEx : Item :=
  ⟨str "ncx", str "toc.ncx", str "application/x-dtbncx+xml", str ""⟩

/-- A throwaway chapter used to exercise the paragraph search. -/
def chapterEx : Chapter := ⟨0, str "Title", str "ch.xhtml"⟩

/-- The spec's base-directory example: descriptor at the archive root, TOC
at `text/toc.xhtml` referencing `ch1.xhtml` (with a fragment). -/
def docTocSubdir : EpubDoc :=
  ⟨[(str "META-INF/container.xml",
      { asContainer := some ⟨[⟨str "content.opf"⟩]⟩ }),
    (str "content.opf",
      { asPackage := some
          ⟨str "3.0",
           ⟨[⟨str "c1", str "text/ch1.xhtml", str "application/xhtml+xml",
              str ""⟩,
             ⟨str "nav", str "text/toc.xhtml", str "application/xhtml+xml",
              str "nav"⟩]⟩,
           ⟨[⟨str "c1"⟩]⟩⟩ }),
    (str "text/toc.xhtml",
      { asHtml := some (.document [.element (str "nav")
          [(str "type", str "toc")]
          [.element (str "ol") []
            [.element (str "a") [(str "href", str "ch1.xhtml#sec1")]
              [.textNode (str "Chapter One")]]]]) }),
    (str "text/ch1.xhtml",
      { asText := str "Hello<br>world &amp; dragons" })]⟩

/-- Decidable equality of `Except` results, for evaluating the embedded
operations on concrete documents. -/
instance {ε α : Type} [DecidableEq ε] [DecidableEq α] :
    DecidableEq (Except ε α) := fun x y =>
  match x, y with
  | .ok a, .ok b =>
    if h : a = b then isTrue (by rw [h]) else isFalse (by simp [h])
  | .error a, .error b =>
    if h : a = b then isTrue (by rw [h]) else isFalse (by simp [h])
  | .ok _, .error _ => isFalse (by simp)
  | .error _, .ok _ => isFalse (by simp)

/-! ## Fuel irrelevance and unfolding equations -/

theorem replaceAllFuel_congr (pat rep : Str) :
    ∀ {n : Nat} {s : Str} {m : Nat}, s.length ≤ n → s.length ≤ m →
      replaceAllFuel pat rep n s = replaceAllFuel pat rep m s := by
  intro n
  induction n with
  | zero =>
    intro s m hn _
    have : s = [] := List.length_eq_zero.mp (Nat.le_zero.mp hn)
    subst this
    cases m <;> rfl
  | succ n ih =>
    intro s m hn hm
    cases s with
    | nil => cases m <;> rfl
    | cons c rest =>
      cases m with
      | zero => simp at hm
      | succ m =>
        simp only [replaceAllFuel]
        by_cases h : pat ≠ [] ∧ startsWithL (c :: rest) pat = true
        · simp only [if_pos h]
          have hp : 0 < pat.length := List.length_pos.mpr h.1
          have hlen : ((c :: rest).drop pat.length).length ≤ n := by
            simp only [List.length_drop, List.length_cons]
            simp only [List.length_cons] at hn
            omega
          have hlen2 : ((c :: rest).drop pat.length).length ≤ m := by
            simp only [List.length_drop, List.length_cons]
            simp only [List.length_cons] at hm
            omega
          rw [ih hlen hlen2]
        · simp only [if_neg h]
          have hlen : rest.length ≤ n := by
            simp only [List.length_cons] at hn; omega
          have hlen2 : rest.length ≤ m := by
            simp only [List.length_cons] at hm; omega
          rw [ih hlen hlen2]

theorem replaceAll_nil (pat rep : Str) : replaceAll [] pat rep = [] := rfl

theorem replaceAll_cons_pos {c : Char} {rest pat : Str} (rep : Str)
    (h : pat ≠ [] ∧ startsWithL (c :: rest) pat = true) :
    replaceAll (c :: rest) pat rep =
      rep ++ replaceAll ((c :: rest).drop pat.length) pat rep := by
  unfold replaceAll
  simp only [List.length_cons, replaceAllFuel, if_pos h]
  congr 1
  have hp : 0 < pat.length := List.length_pos.mpr h.1
  exact replaceAllFuel_congr pat rep
    (by simp only [List.length_drop, List.length_cons]; omega)
    (Nat.le_refl _)

theorem replaceAll_cons_neg {c : Char} {rest pat : Str} (rep : Str)
    (h : ¬(pat ≠ [] ∧ startsWithL (c :: rest) pat = true)) :
    replaceAll (c :: rest) pat rep = c :: replaceAll rest pat rep := by
  unfold replaceAll
  simp only [List.length_cons, replaceAllFuel, if_neg h]

theorem stripTagsFuel_congr :
    ∀ {n : Nat} {s : Str} {m : Nat}, s.length ≤ n → s.length ≤ m →
      stripTagsFuel n s = stripTagsFuel m s := by
  intro n
  induction n with
  | zero =>
    intro s m hn _
    have : s = [] := List.length_eq_zero.mp (Nat.le_zero.mp hn)
    subst this
    cases m with
    | zero => rfl
    | succ m => simp [stripTagsFuel]
  | succ n ih =>
    intro s m hn hm
    cases m with
    | zero =>
      have : s = [] := List.length_eq_zero.mp (Nat.le_zero.mp hm)
      subst this
      simp [stripTagsFuel]
    | succ m =>
      simp only [stripTagsFuel]
      by_cases h : '<' ∈ s ∧ '>' ∈ s
      · simp only [if_pos h]
        by_cases hlt : s.indexOf '<' < s.indexOf '>'
        · simp only [if_pos hlt]
          have hstop : s.indexOf '>' < s.length := List.indexOf_lt_length.mpr h.2
          have hlen :
              (s.take (s.indexOf '<') ++ s.drop (s.indexOf '>' + 1)).length ≤ n := by
            simp only [List.length_append, List.length_take, List.length_drop]
            omega
          have hlen2 :
              (s.take (s.indexOf '<') ++ s.drop (s.indexOf '>' + 1)).length ≤ m := by
            simp only [List.length_append, List.length_take, List.length_drop]
            omega
          exact ih hlen hlen2
        · simp only [if_neg hlt]
      · simp only [if_neg h]

/-- The loop-entry unfolding of `stripTags`: when a `<` comes before a
`>`, one iteration removes everything between them (inclusive). -/
theorem stripTags_step {s : Str} (h : '<' ∈ s ∧ '>' ∈ s)
    (hlt : s.indexOf '<' < s.indexOf '>') :
    stripTags s = stripTags (s.take (s.indexOf '<') ++ s.drop (s.indexOf '>' + 1)) := by
  unfold stripTags
  have hstop : s.indexOf '>' < s.length := List.indexOf_lt_length.mpr h.2
  cases hs : s with
  | nil => subst hs; simp at hstop
  | cons c rest =>
    rw [← hs]
    have hpos : 0 < s.length := by rw [hs]; simp
    obtain ⟨k, hk⟩ : ∃ k, s.length = k + 1 := ⟨s.length - 1, by omega⟩
    rw [hk]
    simp only [stripTagsFuel, if_pos h, if_pos hlt]
    exact stripTagsFuel_congr
      (by simp only [List.length_append, List.length_take, List.length_drop]; omega)
      (Nat.le_refl _)

/-- The loop-exit unfolding of `stripTags`: with no `<`...`>` pair left
(first `<` after first `>`, or one of them absent), the scan stops and
returns its input unchanged. -/
theorem stripTags_stop {s : Str}
    (h : ¬('<' ∈ s ∧ '>' ∈ s ∧ s.indexOf '<' < s.indexOf '>')) :
    stripTags s = s := by
  unfold stripTags
  cases hs : s.length with
  | zero => rfl
  | succ k =>
    simp only [stripTagsFuel]
    by_cases hmem : '<' ∈ s ∧ '>' ∈ s
    · have hlt : ¬ s.indexOf '<' < s.indexOf '>' := fun hc => h ⟨hmem.1, hmem.2, hc⟩
      simp only [if_pos hmem, if_neg hlt]
    · simp only [if_neg hmem]

/-! ## Association-list (Go map) lemmas -/

theorem mapLookup_mapInsert (k k2 v2 : Str) (m : List (Str × Str)) :
    mapLookup k (mapInsert k2 v2 m) =
      if k2 = k then some v2 else mapLookup k m := by
  induction m with
  | nil => simp [mapInsert, mapLookup]
  | cons p rest ih =>
    obtain ⟨k3, v3⟩ := p
    by_cases h : k3 = k2
    · subst h
      simp only [mapInsert, if_pos rfl, mapLookup]
      by_cases hk : k3 = k
      · subst hk; simp
      · simp [hk]
    · simp only [mapInsert, if_neg h, mapLookup]
      by_cases hk : k3 = k
      · subst hk
        have : ¬ k2 = k3 := fun hc => h hc.symm
        simp [this]
      · simp [hk, ih]

/-! ## Claims C1-C3: chapter indices, missing TOC, TOC selection -/

/-- C1: the claim says the emitted chapter sequence carries dense 0-based
indices (the i-th emitted chapter has index i) even when spine entries are
skipped. The code stamps each chapter with its *spine* position instead:
on a document whose spine is `[missing, c1]` with only `c1` in the
manifest, the single emitted chapter has index 1, not 0 — and
`GetEPUBChapterContent`/`SearchEPUBContent` then use that index as a
position in the emitted list, so the codebase itself relies on the density
the claim states. This theorem evaluates the code at the failing input. -/
theorem c1_index_gap_eval :
    GetEPUBChapters docDangling = .ok [⟨1, str "c1", str "c1.xhtml"⟩] := by
  decide

/-- C2 counterexample: on a document that parses fine but has no TOC
candidate in its manifest (`docNoToc`: one plain chapter item;
`docEmptyManifest`: empty manifest and spine), `GetEPUBChapters` fails
with the `no TOC found` error instead of returning a (fallback-titled or
empty) chapter list — the `NoTocFound` condition *is* surfaced as an
operation failure. -/
theorem c2_counterexample :
    GetEPUBChapters docNoToc = .error (str "no TOC found") ∧
    GetEPUBChapters docEmptyManifest = .error (str "no TOC found") := by
  constructor <;> decide

/-- C2 amended: when container and package parse but the manifest has no
TOC candidate, `listChapters` fails with the `no TOC found` error (so an
empty manifest is an error, not an empty list); an empty *spine* with a
usable TOC still yields the empty chapter list without error. -/
theorem c2_amended :
    (∀ (d : EpubDoc) (opfPath : Str) (pkg : Package),
        parsedPackage d = .ok (opfPath, pkg) →
        findTocScan pkg.manifest.items = none →
        GetEPUBChapters d = .error (str "no TOC found")) ∧
    (∀ (d : EpubDoc) (opfPath : Str) (pkg : Package) (tocItem : Item)
        (tf : FileContent) (tocMap : List (Str × Str)),
        parsedPackage d = .ok (opfPath, pkg) →
        findTocScan pkg.manifest.items = some tocItem →
        openEntry d (filepathJoin (filepathDir opfPath) tocItem.href) =
          some tf →
        parseTocOf tocItem tf = .ok tocMap →
        pkg.spine.itemrefs = [] →
        GetEPUBChapters d = .ok []) := by
  constructor
  · intro d opfPath pkg hp ht
    simp [GetEPUBChapters, hp, ht]
  · intro d opfPath pkg tocItem tf tocMap hp ht ho htoc hspine
    simp [GetEPUBChapters, hp, ht, ho, htoc, hspine, buildChapters]

/-- C2 witness: the amended statements applied to concrete documents. -/
theorem c2_amended_witness :
    GetEPUBChapters docNoToc = .error (str "no TOC found") ∧
    GetEPUBChapters docEmptySpine = .ok [] :=
  ⟨c2_amended.1 docNoToc (str "content.opf")
      ⟨str "3.0",
       ⟨[⟨str "c1", str "c1.xhtml", str "application/xhtml+xml", str ""⟩]⟩,
       ⟨[⟨str "c1"⟩]⟩⟩ (by decide) (by decide),
    c2_amended.2 docEmptySpine (str "content.opf")
      ⟨str "3.0", ⟨[navItemEx]⟩, ⟨[]⟩⟩ navItemEx { asHtml := some navTreeEmpty }
      [] (by decide) (by decide) rfl (by decide) rfl⟩

/-- C3 counterexample: a document declaring a navigation document first
and an NCX item second in its manifest. The claim's precedence (nav over
NCX, first candidate wins) predicts the nav title `NavTitle`; the code's
scan keeps overwriting its selection, so the *last* candidate (the NCX)
wins and the chapter is titled `NcxTitle`. -/
theorem c3_counterexample :
    GetEPUBChapters docTwoTocs = .ok [⟨0, str "NcxTitle", str "c1.xhtml"⟩] ∧
    findTocScan [⟨str "c1", str "c1.xhtml", str "application/xhtml+xml",
        str ""⟩, navItemEx, ncxItemEx] = some ncxItemEx ∧
    str "NcxTitle" ≠ str "NavTitle" := by
  refine ⟨by decide, by decide, by decide⟩

/-- C3 amended: when the manifest contains several TOC candidates (items
whose properties contain `nav` or whose media type is the NCX one), the
single manifest scan keeps the *last* matching item, with no precedence
between the two kinds; the parse schema is then chosen by the selected
item's media type. -/
theorem c3_amended :
    ∀ (pre post : List Item) (item : Item),
      isTocCandidate item = true →
      (∀ j ∈ post, isTocCandidate j = false) →
      findTocScan (pre ++ item :: post) = some item := by
  have stay : ∀ (post : List Item) (acc : Option Item),
      (∀ j ∈ post, isTocCandidate j = false) →
      post.foldl (fun acc item =>
        if isTocCandidate item then some item else acc) acc = acc := by
    intro post
    induction post with
    | nil => intro acc _; rfl
    | cons j rest ih =>
      intro acc hno
      have hj : isTocCandidate j = false := hno j (List.mem_cons_self j rest)
      simp only [List.foldl_cons, hj, if_neg (by simp [hj] : ¬ isTocCandidate j = true)]
      exact ih acc (fun x hx => hno x (List.mem_cons_of_mem j hx))
  intro pre post item hitem hno
  unfold findTocScan
  rw [List.foldl_append, List.foldl_cons, if_pos hitem]
  exact stay post (some item) hno

/-- C3 witness: with a nav item before an NCX item, the NCX item (the
last candidate) is selected. -/
theorem c3_amended_witness : findTocScan [navItemEx, ncxItemEx] = some ncxItemEx :=
  c3_amended [navItemEx] [] ncxItemEx (by decide) (by intro j hj; cases hj)

/-! ## Claim C4: TOC paths resolve against the TOC file's directory -/

/-- Every key of the fold that builds the title map comes from joining a
raw TOC source onto the given directory. -/
theorem resolveTitleMap_keys (tocDir : Str) (tocMap : List (Str × Str)) :
    ∀ (k v : Str), mapLookup k (resolveTitleMap tocDir tocMap) = some v →
      ∃ src, src ∈ tocMap.map Prod.fst ∧ k = filepathJoin tocDir src := by
  have H : ∀ (l : List (Str × Str)) (m0 : List (Str × Str)) (k v : Str),
      mapLookup k (l.foldl
        (fun m p => mapInsert (filepathJoin tocDir p.1) p.2 m) m0) = some v →
      (∃ src, src ∈ l.map Prod.fst ∧ k = filepathJoin tocDir src) ∨
        mapLookup k m0 = some v := by
    intro l
    induction l with
    | nil => intro m0 k v h; exact Or.inr h
    | cons p rest ih =>
      intro m0 k v h
      rw [List.foldl_cons] at h
      rcases ih _ k v h with hl | hr
      · obtain ⟨src, hsrc, hk⟩ := hl
        exact Or.inl ⟨src, List.mem_cons_of_mem _ hsrc, hk⟩
      · rw [mapLookup_mapInsert] at hr
        by_cases hk : filepathJoin tocDir p.1 = k
        · exact Or.inl ⟨p.1, by simp, hk.symm⟩
        · rw [if_neg hk] at hr
          exact Or.inr hr
  intro k v h
  rcases H tocMap [] k v h with hl | hr
  · exact hl
  · simp [mapLookup] at hr

/-- C4: every path extracted from the TOC is resolved against the TOC
file's own directory before keying the title map: (1) any key with a
binding in the resolved title map is `filepath.Join(tocDir, src)` for some
raw TOC source `src`; (2-4) on the spec's example document (descriptor at
the archive root, TOC at `text/toc.xhtml` referencing `ch1.xhtml#sec1`)
the TOC directory is `text`, the fragment-stripped reference resolves to
`text/ch1.xhtml`, and the emitted chapter therefore carries the TOC title
`Chapter One`. -/
theorem c4_toc_dir_resolution :
    (∀ (tocDir : Str) (tocMap : List (Str × Str)) (k v : Str),
        mapLookup k (resolveTitleMap tocDir tocMap) = some v →
        ∃ src, src ∈ tocMap.map Prod.fst ∧ k = filepathJoin tocDir src) ∧
    filepathDir (filepathJoin (filepathDir (str "content.opf"))
      (str "text/toc.xhtml")) = str "text" ∧
    filepathJoin (str "text") (stripFrag (str "ch1.xhtml#sec1")) =
      str "text/ch1.xhtml" ∧
    GetEPUBChapters docTocSubdir =
      .ok [⟨0, str "Chapter One", str "text/ch1.xhtml"⟩] :=
  ⟨resolveTitleMap_keys, by decide, by decide, by decide⟩

/-- C4 witness: the key `text/ch1.xhtml` found in the resolved title map
of the example TOC indeed arises by joining a raw source onto the TOC
directory `text`. -/
theorem c4_witness :
    ∃ src, src ∈ [(str "ch1.xhtml", str "Chapter One")].map Prod.fst ∧
      str "text/ch1.xhtml" = filepathJoin (str "text") src :=
  c4_toc_dir_resolution.1 (str "text") [(str "ch1.xhtml", str "Chapter One")]
    (str "text/ch1.xhtml") (str "Chapter One") (by decide)

/-! ## Claim C5: fallback titles and non-empty TOC override -/

/-- C5: every emitted chapter is titled by the filename-derived fallback
(final path element, extension stripped) unless the title map binds the
chapter's canonical href to a non-empty title, in which case that title is
used; an empty TOC title never replaces the fallback. -/
theorem c5_title_override :
    ∀ (hrefMap titleMap : List (Str × Str)) (itemrefs : List Itemref)
      (c : Chapter), c ∈ buildChapters hrefMap titleMap itemrefs →
      c.title = (match mapLookup c.href titleMap with
        | some t => if t ≠ [] then t else fallbackTitle c.href
        | none => fallbackTitle c.href) := by
  intro hrefMap titleMap itemrefs c hc
  unfold buildChapters at hc
  rw [List.mem_filterMap] at hc
  obtain ⟨p, _, hp⟩ := hc
  rcases hhref : mapLookup p.2.idref hrefMap with _ | href
  · rw [hhref] at hp; cases hp
  · rw [hhref] at hp
    simp only [Option.some.injEq] at hp
    subst hp
    rfl

/-- C5 witness: a concrete chapter built from a one-entry spine picks the
non-empty TOC title over the fallback. -/
theorem c5_witness :
    (Chapter.mk 0 (str "Chapter One") (str "text/ch1.xhtml")).title =
      (match mapLookup (Chapter.mk 0 (str "Chapter One")
          (str "text/ch1.xhtml")).href
          [(str "text/ch1.xhtml", str "Chapter One")] with
        | some t => if t ≠ [] then t
            else fallbackTitle (str "text/ch1.xhtml")
        | none => fallbackTitle (str "text/ch1.xhtml")) :=
  c5_title_override [(str "c1", str "text/ch1.xhtml")]
    [(str "text/ch1.xhtml", str "Chapter One")] [⟨str "c1"⟩]
    ⟨0, str "Chapter One", str "text/ch1.xhtml"⟩ (by decide)

/-! ## String-search lemmas -/

theorem startsWithL_length {s pat : Str} (h : startsWithL s pat = true) :
    pat.length ≤ s.length := by
  induction pat generalizing s with
  | nil => simp
  | cons d p ih =>
    cases s with
    | nil => simp [startsWithL] at h
    | cons c rest =>
      simp only [startsWithL, Bool.and_eq_true, decide_eq_true_eq] at h
      simpa using Nat.succ_le_succ (ih h.2)

theorem startsWithL_take {s pat : Str} (h : startsWithL s pat = true) :
    s.take pat.length = pat := by
  induction pat generalizing s with
  | nil => simp
  | cons d p ih =>
    cases s with
    | nil => simp [startsWithL] at h
    | cons c rest =>
      simp only [startsWithL, Bool.and_eq_true, decide_eq_true_eq] at h
      simp [List.take, h.1, ih h.2]

theorem indexOfSub_le_length {s pat : Str} {pos : Nat}
    (h : indexOfSub s pat = some pos) : pos ≤ s.length := by
  induction s generalizing pos with
  | nil =>
    by_cases hp : pat = []
    · simp [indexOfSub, hp] at h
      omega
    · simp [indexOfSub, hp] at h
  | cons c rest ih =>
    simp only [indexOfSub] at h
    by_cases hs : startsWithL (c :: rest) pat = true
    · simp [hs] at h
      omega
    · simp only [hs, Bool.false_eq_true, if_false] at h
      rcases hrec : indexOfSub rest pat with _ | p
      · rw [hrec] at h; simp at h
      · rw [hrec] at h
        simp only [Option.map_some', Option.some.injEq] at h
        have := ih hrec
        simp only [List.length_cons]
        omega

theorem indexOfSub_startsWith {s pat : Str} {pos : Nat}
    (h : indexOfSub s pat = some pos) :
    startsWithL (s.drop pos) pat = true := by
  induction s generalizing pos with
  | nil =>
    by_cases hp : pat = []
    · subst hp
      simp [indexOfSub] at h
      subst h
      rfl
    · simp [indexOfSub, hp] at h
  | cons c rest ih =>
    simp only [indexOfSub] at h
    by_cases hs : startsWithL (c :: rest) pat = true
    · simp [hs] at h
      subst h
      exact hs
    · simp only [hs, Bool.false_eq_true, if_false] at h
      rcases hrec : indexOfSub rest pat with _ | p
      · rw [hrec] at h; simp at h
      · rw [hrec] at h
        simp only [Option.map_some', Option.some.injEq] at h
        subst h
        simpa using ih hrec

theorem indexOfSub_first {s pat : Str} {pos : Nat}
    (h : indexOfSub s pat = some pos) :
    ∀ j < pos, startsWithL (s.drop j) pat = false := by
  induction s generalizing pos with
  | nil =>
    by_cases hp : pat = []
    · simp [indexOfSub, hp] at h
      intro j hj
      omega
    · simp [indexOfSub, hp] at h
  | cons c rest ih =>
    simp only [indexOfSub] at h
    by_cases hs : startsWithL (c :: rest) pat = true
    · simp [hs] at h
      intro j hj
      omega
    · simp only [hs, Bool.false_eq_true, if_false] at h
      rcases hrec : indexOfSub rest pat with _ | p
      · rw [hrec] at h; simp at h
      · rw [hrec] at h
        simp only [Option.map_some', Option.some.injEq] at h
        subst h
        intro j hj
        cases j with
        | zero => simpa using hs
        | succ j => simpa using ih hrec j (by omega)

theorem lowerStr_length (s : Str) : (lowerStr s).length = s.length :=
  List.length_map s lowerChar

theorem lowerStr_drop (s : Str) (n : Nat) :
    lowerStr (s.drop n) = (lowerStr s).drop n :=
  List.map_drop lowerChar s n

theorem lowerStr_take (s : Str) (n : Nat) :
    lowerStr (s.take n) = (lowerStr s).take n :=
  (List.map_take lowerChar s n)

/-! ## Claim C6: case-insensitive search, case-preserving snippet -/

/-- The paragraph loop as a filter-map over the split paragraphs. -/
theorem searchParagraphs_eq (query : Str) (ch : Chapter) (content : Str) :
    searchParagraphs query ch content =
      (splitChar '\n' content).filterMap (fun para =>
        if para = [] then none
        else
          match indexOfSub (lowerStr para) (lowerStr query) with
          | none => none
          | some pos =>
            some ⟨ch.index, ch.title, mkSnippet para pos query.length⟩) := by
  unfold searchParagraphs
  generalize splitChar '\n' content = ps
  suffices H : ∀ (ps : List Str) (acc : List SearchMatch),
      ps.foldl (fun acc para =>
        if para = [] then acc
        else
          match indexOfSub (lowerStr para) (lowerStr query) with
          | none => acc
          | some pos =>
            acc ++ [⟨ch.index, ch.title, mkSnippet para pos query.length⟩]) acc
      = acc ++ ps.filterMap (fun para =>
          if para = [] then none
          else
            match indexOfSub (lowerStr para) (lowerStr query) with
            | none => none
            | some pos =>
              some ⟨ch.index, ch.title, mkSnippet para pos query.length⟩) by
    simpa using H ps []
  intro ps
  induction ps with
  | nil => intro acc; simp
  | cons para rest ih =>
    intro acc
    simp only [List.foldl_cons, List.filterMap_cons]
    by_cases hp : para = []
    · simp only [if_pos hp, ih]
    · simp only [if_neg hp]
      rcases hidx : indexOfSub (lowerStr para) (lowerStr query) with _ | pos
      · simp [ih]
      · simp [ih]

/-- C6: matching is case-insensitive but the snippet is case-preserving:
the paragraph loop emits exactly one match per non-empty paragraph whose
case-folded text contains the case-folded query, and for a first match
position `pos` the snippet is the original paragraph with the marker pair
inserted around the span `para[pos : pos+|query|]` — removing the two
markers restores the paragraph verbatim, the marked span case-folds to the
query, its length is the raw query's length, and `pos` is the first
case-insensitive occurrence. -/
theorem c6_search_casing :
    ∀ (query : Str) (ch : Chapter) (content : Str),
      (searchParagraphs query ch content =
        (splitChar '\n' content).filterMap (fun para =>
          if para = [] then none
          else
            match indexOfSub (lowerStr para) (lowerStr query) with
            | none => none
            | some pos =>
              some ⟨ch.index, ch.title, mkSnippet para pos query.length⟩)) ∧
      (∀ (para : Str) (pos : Nat),
        indexOfSub (lowerStr para) (lowerStr query) = some pos →
        mkSnippet para pos query.length =
          para.take pos ++ str "**" ++ (para.drop pos).take query.length ++
            str "**" ++ para.drop (pos + query.length) ∧
        para.take pos ++ (para.drop pos).take query.length ++
          para.drop (pos + query.length) = para ∧
        lowerStr ((para.drop pos).take query.length) = lowerStr query ∧
        ((para.drop pos).take query.length).length = query.length ∧
        (∀ j < pos,
          startsWithL ((lowerStr para).drop j) (lowerStr query) = false)) := by
  intro query ch content
  refine ⟨searchParagraphs_eq query ch content, ?_⟩
  intro para pos h
  have hsw := indexOfSub_startsWith h
  have hpos := indexOfSub_le_length h
  have hlen := startsWithL_length hsw
  rw [List.length_drop, lowerStr_length, lowerStr_length] at hlen
  rw [lowerStr_length] at hpos
  have hfit : pos + query.length ≤ para.length := by omega
  refine ⟨rfl, ?_, ?_, ?_, indexOfSub_first h⟩
  · have h1 : (para.drop pos).take query.length ++
        para.drop (pos + query.length) = para.drop pos := by
      rw [← List.drop_drop query.length pos para]
      exact List.take_append_drop _ _
    rw [List.append_assoc, h1, List.take_append_drop]
  · have := startsWithL_take hsw
    rw [lowerStr_length] at this
    rw [lowerStr_take, lowerStr_drop]
    exact this
  · rw [List.length_take, List.length_drop]
    omega

/-- C6 witness: the spec's example — searching `dragon` in
`The Dragon woke.` marks the original-case span `Dragon` at position 4. -/
theorem c6_witness :
    mkSnippet (str "The Dragon woke.") 4 (str "dragon").length =
      (str "The Dragon woke.").take 4 ++ str "**" ++
        ((str "The Dragon woke.").drop 4).take (str "dragon").length ++
        str "**" ++ (str "The Dragon woke.").drop (4 + (str "dragon").length) ∧
    (str "The Dragon woke.").take 4 ++
      ((str "The Dragon woke.").drop 4).take (str "dragon").length ++
      (str "The Dragon woke.").drop (4 + (str "dragon").length) =
      str "The Dragon woke." ∧
    lowerStr (((str "The Dragon woke.").drop 4).take (str "dragon").length) =
      lowerStr (str "dragon") ∧
    (((str "The Dragon woke.").drop 4).take (str "dragon").length).length =
      (str "dragon").length ∧
    (∀ j < 4, startsWithL ((lowerStr (str "The Dragon woke.")).drop j)
      (lowerStr (str "dragon")) = false) :=
  (c6_search_casing (str "dragon") chapterEx (str "The Dragon woke.")).2
    (str "The Dragon woke.") 4 (by decide)

/-! ## Text-extractor lemmas (claims C7 and C8) -/

theorem startsWithL_mem {s pat : Str} (h : startsWithL s pat = true) :
    ∀ x ∈ pat, x ∈ s := by
  induction pat generalizing s with
  | nil => intro x hx; cases hx
  | cons d p ih =>
    cases s with
    | nil => simp [startsWithL] at h
    | cons c rest =>
      simp only [startsWithL, Bool.and_eq_true, decide_eq_true_eq] at h
      intro x hx
      rcases List.mem_cons.mp hx with hx | hx
      · subst hx; rw [h.1]; exact List.mem_cons_self _ _
      · exact List.mem_cons_of_mem _ (ih h.2 x hx)

/-- A replacement whose pattern contains a character absent from the text
leaves the text unchanged. -/
theorem replaceAll_id_of_not_mem {ch : Char} {s pat : Str} (rep : Str)
    (hc : ch ∈ pat) (hs : ch ∉ s) : replaceAll s pat rep = s := by
  induction s with
  | nil => rfl
  | cons c rest ih =>
    have hneg : ¬(pat ≠ [] ∧ startsWithL (c :: rest) pat = true) := by
      rintro ⟨-, hsw⟩
      exact hs (startsWithL_mem hsw ch hc)
    rw [replaceAll_cons_neg rep hneg,
      ih (fun hmem => hs (List.mem_cons_of_mem c hmem))]

/-- Without a `<` the bracket scan does not run. -/
theorem stripTags_id_of_not_mem {s : Str} (h : '<' ∉ s) : stripTags s = s :=
  stripTags_stop (fun hc => h hc.1)

theorem dropWhile_dropWhile (p : Char → Bool) (l : Str) :
    (l.dropWhile p).dropWhile p = l.dropWhile p := by
  induction l with
  | nil => rfl
  | cons c rest ih =>
    by_cases hc : p c = true
    · simp only [List.dropWhile_cons, hc, if_true]
      exact ih
    · simp only [Bool.not_eq_true] at hc
      simp [List.dropWhile_cons, hc]

theorem ltrim_ltrim (s : Str) : ltrim (ltrim s) = ltrim s :=
  dropWhile_dropWhile isSpaceChar s

theorem rtrim_rtrim (s : Str) : rtrim (rtrim s) = rtrim s := by
  unfold rtrim
  rw [List.reverse_reverse, dropWhile_dropWhile]

/-- On a left-trimmed text, right-trimming keeps the left end trimmed. -/
theorem ltrim_rtrim {t : Str} (h : ltrim t = t) : ltrim (rtrim t) = rtrim t := by
  cases t with
  | nil => rfl
  | cons c rest =>
    have hc : isSpaceChar c = false := by
      by_contra hcc
      have hcc : isSpaceChar c = true := by
        cases hb : isSpaceChar c
        · exact absurd hb hcc
        · rfl
      unfold ltrim at h
      rw [List.dropWhile_cons, hcc, if_pos rfl] at h
      have := (List.dropWhile_sublist (l := rest) isSpaceChar).length_le
      have hlen := congrArg List.length h
      simp only [List.length_cons] at hlen
      omega
    unfold rtrim
    rw [List.reverse_cons, List.dropWhile_append]
    by_cases hemp : (rest.reverse.dropWhile isSpaceChar).isEmpty = true
    · rw [if_pos hemp]
      simp only [List.dropWhile_cons, hc, if_false, List.dropWhile_nil]
      simp [ltrim, List.dropWhile_cons, hc]
    · rw [if_neg hemp]
      rw [List.reverse_append]
      simp only [List.reverse_cons, List.reverse_nil, List.nil_append]
      simp [ltrim, List.dropWhile_cons, hc]

theorem trimSpaceStr_idem (s : Str) :
    trimSpaceStr (trimSpaceStr s) = trimSpaceStr s := by
  unfold trimSpaceStr
  rw [ltrim_rtrim (ltrim_ltrim s), rtrim_rtrim]

/-- Trimming only removes characters. -/
theorem mem_of_mem_trimSpaceStr {x : Char} {s : Str}
    (h : x ∈ trimSpaceStr s) : x ∈ s := by
  unfold trimSpaceStr rtrim ltrim at h
  rw [List.mem_reverse] at h
  have h1 := (List.dropWhile_sublist isSpaceChar).mem h
  rw [List.mem_reverse] at h1
  exact (List.dropWhile_sublist isSpaceChar).mem h1

theorem splitChar_cons_eq (sep : Char) (rest : Str) :
    splitChar sep (sep :: rest) = [] :: splitChar sep rest := by
  conv_lhs => unfold splitChar
  simp

theorem splitChar_cons_ne {sep c : Char} (rest : Str) (hc : ¬ c = sep) :
    splitChar sep (c :: rest) =
      match splitChar sep rest with
      | [] => [[c]]
      | h :: t => (c :: h) :: t := by
  conv_lhs => unfold splitChar
  simp [hc]

theorem splitChar_ne_nil (sep : Char) (s : Str) : splitChar sep s ≠ [] := by
  cases s with
  | nil => simp [splitChar]
  | cons c rest =>
    unfold splitChar
    by_cases hc : c = sep
    · simp [hc]
    · simp only [hc, if_false]
      rcases splitChar sep rest with _ | ⟨h1, t1⟩ <;> simp

theorem mem_splitChar_not_mem (sep : Char) (s : Str) :
    ∀ l ∈ splitChar sep s, sep ∉ l := by
  induction s with
  | nil =>
    intro l hl
    simp only [splitChar, List.mem_singleton] at hl
    subst hl; simp
  | cons c rest ih =>
    intro l hl
    unfold splitChar at hl
    by_cases hc : c = sep
    · simp only [if_pos hc] at hl
      rcases List.mem_cons.mp hl with hl | hl
      · subst hl; simp
      · exact ih l hl
    · simp only [hc, if_false] at hl
      rcases hr : splitChar sep rest with _ | ⟨h1, t1⟩
      · exact absurd hr (splitChar_ne_nil sep rest)
      · rw [hr] at hl
        rcases List.mem_cons.mp hl with hl | hl
        · subst hl
          intro hmem
          rcases List.mem_cons.mp hmem with hmem | hmem
          · exact hc hmem.symm
          · exact ih h1 (by rw [hr]; exact List.mem_cons_self _ _) hmem
        · exact ih l (by rw [hr]; exact List.mem_cons_of_mem _ hl)

theorem splitChar_of_not_mem {sep : Char} {x : Str} (hx : sep ∉ x) :
    splitChar sep x = [x] := by
  induction x with
  | nil => rfl
  | cons c rest ih =>
    have hc : ¬ c = sep := fun hcc =>
      hx (by rw [hcc]; exact List.mem_cons_self _ _)
    unfold splitChar
    rw [ih (fun hm => hx (List.mem_cons_of_mem c hm))]
    simp [hc]

theorem splitChar_append_cons {sep : Char} {x : Str} (t : Str)
    (hx : sep ∉ x) :
    splitChar sep (x ++ sep :: t) = x :: splitChar sep t := by
  induction x with
  | nil => simp [splitChar_cons_eq]
  | cons c rest ih =>
    have hc : ¬ c = sep := fun hcc =>
      hx (by rw [hcc]; exact List.mem_cons_self _ _)
    rw [List.cons_append, splitChar_cons_ne _ hc,
      ih (fun hm => hx (List.mem_cons_of_mem c hm))]

theorem intercalate_cons_cons (sep : Char) (x y : Str) (rest : List Str) :
    List.intercalate [sep] (x :: y :: rest) =
      x ++ sep :: List.intercalate [sep] (y :: rest) := by
  simp [List.intercalate, List.intersperse]

theorem splitChar_intercalate (sep : Char) :
    ∀ (ls : List Str), ls ≠ [] → (∀ l ∈ ls, sep ∉ l) →
      splitChar sep (List.intercalate [sep] ls) = ls := by
  intro ls
  induction ls with
  | nil => intro h; exact absurd rfl h
  | cons x rest ih =>
    intro _ hfree
    cases rest with
    | nil =>
      have hx : List.intercalate [sep] [x] = x := by
        simp [List.intercalate]
      rw [hx]
      exact splitChar_of_not_mem (hfree x (List.mem_cons_self _ _))
    | cons y rest2 =>
      rw [intercalate_cons_cons]
      rw [splitChar_append_cons _ (hfree x (List.mem_cons_self _ _))]
      rw [ih (by simp) (fun l hl => hfree l (List.mem_cons_of_mem _ hl))]

theorem str_newline : str "\n" = ['\n'] := rfl

/-- `cleanLines` is idempotent: its output is a `\n`-join of trimmed,
non-empty, newline-free lines, which cleaning again leaves unchanged. -/
theorem cleanLines_idem (s : Str) : cleanLines (cleanLines s) = cleanLines s := by
  unfold cleanLines
  rw [str_newline]
  set ls := ((splitChar '\n' s).map trimSpaceStr).filter (fun l => l ≠ []) with hls
  have hfree : ∀ l ∈ ls, '\n' ∉ l := by
    intro l hl
    rw [hls] at hl
    obtain ⟨l0, hl0, hltrim⟩ := List.mem_map.mp (List.mem_of_mem_filter hl)
    intro hmem
    subst hltrim
    exact mem_splitChar_not_mem '\n' s l0 hl0 (mem_of_mem_trimSpaceStr hmem)
  have htrim : ∀ l ∈ ls, trimSpaceStr l = l := by
    intro l hl
    rw [hls] at hl
    obtain ⟨l0, _, hltrim⟩ := List.mem_map.mp (List.mem_of_mem_filter hl)
    subst hltrim
    exact trimSpaceStr_idem l0
  have hne : ∀ l ∈ ls, l ≠ [] := by
    intro l hl
    have := List.of_mem_filter hl
    simpa using this
  cases hnil : ls with
  | nil => simp [splitChar, trimSpaceStr, ltrim, rtrim, List.intercalate]
  | cons x rest =>
    rw [← hnil]
    rw [splitChar_intercalate '\n' ls (by rw [hnil]; simp) hfree]
    have hmap : ls.map trimSpaceStr = ls := by
      conv_rhs => rw [← List.map_id ls]
      exact List.map_congr_left htrim
    rw [hmap]
    have hfilter : ls.filter (fun l => l ≠ []) = ls :=
      List.filter_eq_self.mpr (by intro a ha; simpa using hne a ha)
    rw [hfilter]

/-- On text free of `<` and `&`, every replacement pattern misses, the
bracket scan does not run, and no entity decodes: extraction is just the
whitespace cleanup. -/
theorem extractTextFromHTML_eq_cleanLines {s : Str} (hlt : '<' ∉ s)
    (hamp : '&' ∉ s) : extractTextFromHTML s = cleanLines s := by
  simp only [extractTextFromHTML]
  rw [replaceAll_id_of_not_mem _ (show '<' ∈ str "<br>" by decide) hlt]
  rw [replaceAll_id_of_not_mem _ (show '<' ∈ str "<br/>" by decide) hlt]
  rw [replaceAll_id_of_not_mem _ (show '<' ∈ str "<br />" by decide) hlt]
  rw [replaceAll_id_of_not_mem _ (show '<' ∈ str "<p>" by decide) hlt]
  rw [replaceAll_id_of_not_mem _ (show '<' ∈ str "</p>" by decide) hlt]
  rw [replaceAll_id_of_not_mem _ (show '<' ∈ str "<div>" by decide) hlt]
  rw [replaceAll_id_of_not_mem _ (show '<' ∈ str "</div>" by decide) hlt]
  rw [replaceAll_id_of_not_mem _ (show '<' ∈ str "<h1>" by decide) hlt]
  rw [replaceAll_id_of_not_mem _ (show '<' ∈ str "</h1>" by decide) hlt]
  rw [replaceAll_id_of_not_mem _ (show '<' ∈ str "<h2>" by decide) hlt]
  rw [replaceAll_id_of_not_mem _ (show '<' ∈ str "</h2>" by decide) hlt]
  rw [replaceAll_id_of_not_mem _ (show '<' ∈ str "<h3>" by decide) hlt]
  rw [replaceAll_id_of_not_mem _ (show '<' ∈ str "</h3>" by decide) hlt]
  rw [replaceAll_id_of_not_mem _ (show '<' ∈ str "<h4>" by decide) hlt]
  rw [replaceAll_id_of_not_mem _ (show '<' ∈ str "</h4>" by decide) hlt]
  rw [replaceAll_id_of_not_mem _ (show '<' ∈ str "<h5>" by decide) hlt]
  rw [replaceAll_id_of_not_mem _ (show '<' ∈ str "</h5>" by decide) hlt]
  rw [replaceAll_id_of_not_mem _ (show '<' ∈ str "<h6>" by decide) hlt]
  rw [replaceAll_id_of_not_mem _ (show '<' ∈ str "</h6>" by decide) hlt]
  rw [stripTags_id_of_not_mem hlt]
  rw [replaceAll_id_of_not_mem _ (show '&' ∈ str "&nbsp;" by decide) hamp]
  rw [replaceAll_id_of_not_mem _ (show '&' ∈ str "&amp;" by decide) hamp]
  rw [replaceAll_id_of_not_mem _ (show '&' ∈ str "&lt;" by decide) hamp]
  rw [replaceAll_id_of_not_mem _ (show '&' ∈ str "&gt;" by decide) hamp]
  rw [replaceAll_id_of_not_mem _ (show '&' ∈ str "&quot;" by decide) hamp]
  rw [replaceAll_id_of_not_mem _ (show '&' ∈ str "&#39;" by decide) hamp]

/-- The extractor always ends in the whitespace cleanup, so cleaning its
output again changes nothing. -/
theorem cleanLines_extractTextFromHTML (s : Str) :
    cleanLines (extractTextFromHTML s) = extractTextFromHTML s := by
  unfold extractTextFromHTML
  exact cleanLines_idem _

/-- C7 counterexample: `extractText` is not idempotent on all inputs —
entity decoding reintroduces markup characters after tag stripping, so
`extractText("&lt;b&gt;") = "<b>"` while a second application strips the
reintroduced tag and yields `""`. -/
theorem c7_counterexample :
    extractTextFromHTML (extractTextFromHTML (str "&lt;b&gt;")) ≠
      extractTextFromHTML (str "&lt;b&gt;") ∧
    extractTextFromHTML (str "&lt;b&gt;") = str "<b>" ∧
    extractTextFromHTML (str "<b>") = [] := by
  refine ⟨by decide, by decide, by decide⟩

/-- C7 amended: `extractText` is idempotent on already-plain text — on any
input whose extraction output contains neither `<` nor `&` (in particular
on any such plain input), a second application returns the first output
unchanged. On general inputs idempotence can fail because entity decoding
reintroduces `<`/`>` after the tag-stripping pass. -/
theorem c7_amended (s : Str) (hlt : '<' ∉ extractTextFromHTML s)
    (hamp : '&' ∉ extractTextFromHTML s) :
    extractTextFromHTML (extractTextFromHTML s) = extractTextFromHTML s :=
  (extractTextFromHTML_eq_cleanLines hlt hamp).trans
    (cleanLines_extractTextFromHTML s)

/-- C7 witness: a second extraction of the already-extracted text of a
small markup fragment returns it unchanged. -/
theorem c7_witness :
    extractTextFromHTML (extractTextFromHTML (str "<p> Hello world </p>")) =
      extractTextFromHTML (str "<p> Hello world </p>") :=
  c7_amended (str "<p> Hello world </p>") (by decide) (by decide)

/-- C8 counterexample: the claim also says an unbalanced trailing `<`
sequence is *stripped from the output*; in fact the scan merely stops, and
the trailing `<` sequence survives into the extractor's output. -/
theorem c8_counterexample :
    extractTextFromHTML (str "a<b") = str "a<b" ∧
    '<' ∈ extractTextFromHTML (str "a<b") := by
  refine ⟨by decide, by decide⟩

/-- C8 amended: the bracket scan terminates on every input — whenever the
first `<` precedes a `>`, one iteration removes the bracketed span and
strictly shrinks the text, otherwise the scan stops and returns its input
unchanged (so an unbalanced trailing `<` sequence is left in place, not
stripped); consequently the scan's output never exceeds its input in
length. -/
theorem c8_amended :
    (∀ s : Str, ('<' ∈ s ∧ '>' ∈ s ∧ s.indexOf '<' < s.indexOf '>') →
      (s.take (s.indexOf '<') ++ s.drop (s.indexOf '>' + 1)).length <
        s.length ∧
      stripTags s =
        stripTags (s.take (s.indexOf '<') ++ s.drop (s.indexOf '>' + 1))) ∧
    (∀ s : Str, ¬('<' ∈ s ∧ '>' ∈ s ∧ s.indexOf '<' < s.indexOf '>') →
      stripTags s = s) ∧
    (∀ s : Str, (stripTags s).length ≤ s.length) := by
  have hshrink : ∀ s : Str,
      ('<' ∈ s ∧ '>' ∈ s ∧ s.indexOf '<' < s.indexOf '>') →
      (s.take (s.indexOf '<') ++ s.drop (s.indexOf '>' + 1)).length <
        s.length := by
    intro s h
    have hstop : s.indexOf '>' < s.length := List.indexOf_lt_length.mpr h.2.1
    simp only [List.length_append, List.length_take, List.length_drop]
    omega
  refine ⟨fun s h => ⟨hshrink s h, stripTags_step ⟨h.1, h.2.1⟩ h.2.2⟩,
    fun s h => stripTags_stop h, ?_⟩
  have H : ∀ (n : Nat) (s : Str), s.length ≤ n →
      (stripTags s).length ≤ s.length := by
    intro n
    induction n with
    | zero =>
      intro s hs
      have : s = [] := List.length_eq_zero.mp (Nat.le_zero.mp hs)
      subst this
      simp [stripTags, stripTagsFuel]
    | succ n ih =>
      intro s hs
      by_cases h : '<' ∈ s ∧ '>' ∈ s ∧ s.indexOf '<' < s.indexOf '>'
      · rw [stripTags_step ⟨h.1, h.2.1⟩ h.2.2]
        have h1 := hshrink s h
        have h2 := ih (s.take (s.indexOf '<') ++ s.drop (s.indexOf '>' + 1))
          (by omega)
        omega
      · rw [stripTags_stop h]
  exact fun s => H s.length s (Nat.le_refl _)

/-- C8 witness: the shrink-step clause applied at `x<y>z` (one iteration
removes `<y>` and shrinks 5 to 2) and the stop clause at `a<b`. -/
theorem c8_witness :
    (((str "x<y>z").take ((str "x<y>z").indexOf '<') ++
        (str "x<y>z").drop ((str "x<y>z").indexOf '>' + 1)).length <
      (str "x<y>z").length ∧
      stripTags (str "x<y>z") =
        stripTags ((str "x<y>z").take ((str "x<y>z").indexOf '<') ++
          (str "x<y>z").drop ((str "x<y>z").indexOf '>' + 1))) ∧
    stripTags (str "a<b") = str "a<b" :=
  ⟨c8_amended.1 (str "x<y>z") (by decide), c8_amended.2.1 (str "a<b") (by decide)⟩

/-! ## Claim C9: cache write-back and pure pagination -/

/-- C9: the search engine's pagination is a pure view over the cached
entry. (1) On a recompute (no fresh cache hit, chapter list succeeds) the
*full* unpaginated match list is written into the cache under the
`(documentId, query)` key with the current time, and the returned view is
that full list paginated — so the returned cache is independent of offset
and limit, and repeating any paginated request yields the same items.
(2) A fresh cache hit returns the paginated cached entry and leaves the
cache untouched. (3) Pagination semantics: an offset at or beyond the
result count yields the empty sequence; otherwise the first `offset`
entries are dropped and, for positive limit, the remainder truncated to
`limit`. (4) Offset 0 with no positive limit returns the full result
set. -/
theorem c9_pagination_pure :
    (∀ (d : EpubDoc) (cache : Cache) (now : Nat) (bookID : Int)
       (query : Str) (limit offset : Int) (chapters : List Chapter),
       cacheHit cache (bookID, query) now = none →
       GetEPUBChapters d = .ok chapters →
       SearchEPUBContent d cache now bookID query limit offset =
         .ok (paginate (computeMatches d query chapters) limit offset,
           cacheInsert (bookID, query)
             ⟨computeMatches d query chapters, now⟩ cache)) ∧
    (∀ (d : EpubDoc) (cache : Cache) (now : Nat) (bookID : Int)
       (query : Str) (limit offset : Int) (entry : CacheEntry),
       cacheLookup (bookID, query) cache = some entry →
       now - entry.timestamp < 60 →
       SearchEPUBContent d cache now bookID query limit offset =
         .ok (paginate entry.matchList limit offset, cache)) ∧
    (∀ (ms : List SearchMatch) (limit offset : Int),
       paginate ms limit offset =
         if (ms.length : Int) ≤ offset then []
         else
           if 0 < limit then (ms.drop offset.toNat).take limit.toNat
           else ms.drop offset.toNat) ∧
    (∀ (ms : List SearchMatch) (limit : Int), limit ≤ 0 →
       paginate ms limit 0 = ms) := by
  refine ⟨?_, ?_, ?_, ?_⟩
  · intro d cache now bookID query limit offset chapters hhit hch
    simp only [SearchEPUBContent, hhit, hch]
  · intro d cache now bookID query limit offset entry hlook htime
    simp only [SearchEPUBContent, cacheHit, hlook, if_pos htime]
  · intro ms limit offset
    unfold paginate
    by_cases h1 : offset > 0 ∧ (ms.length : Int) ≤ offset
    · rw [if_pos h1, if_pos h1.2]
    · rw [if_neg h1]
      by_cases h2 : (ms.length : Int) ≤ offset
      · have hoff : ¬ offset > 0 := fun hc => h1 ⟨hc, h2⟩
        have hlen : ms.length = 0 := by omega
        have hms : ms = [] := List.length_eq_zero.mp hlen
        subst hms
        rw [if_pos h2]
        simp
      · rw [if_neg h2]
        have hdrop : (if offset > 0 then ms.drop offset.toNat else ms) =
            ms.drop offset.toNat := by
          by_cases h3 : offset > 0
          · rw [if_pos h3]
          · rw [if_neg h3]
            have : offset.toNat = 0 := by omega
            rw [this, List.drop_zero]
        rw [hdrop]
        by_cases h4 : limit > 0 ∧ limit < ((ms.drop offset.toNat).length : Int)
        · rw [if_pos h4, if_pos h4.1]
        · rw [if_neg h4]
          by_cases h5 : (0 : Int) < limit
          · rw [if_pos h5]
            have h6 : ¬ limit < ((ms.drop offset.toNat).length : Int) :=
              fun hc => h4 ⟨h5, hc⟩
            have h7 : (ms.drop offset.toNat).length ≤ limit.toNat := by omega
            rw [List.take_of_length_le h7]
          · rw [if_neg h5]
  · intro ms limit hlim
    unfold paginate
    rw [if_neg (fun hc => absurd hc.1 (by decide))]
    rw [if_neg (by decide : ¬ (0 : Int) > 0)]
    rw [if_neg (fun hc => absurd hc.1 (by omega))]

/-- C9 witness: a recompute on a concrete document stores the full result
and returns the paginated view. -/
theorem c9_witness :
    SearchEPUBContent docTocSubdir [] 0 7 (str "dragon") 2 1 =
      .ok (paginate (computeMatches docTocSubdir (str "dragon")
          [⟨0, str "Chapter One", str "text/ch1.xhtml"⟩]) 2 1,
        cacheInsert (7, str "dragon")
          ⟨computeMatches docTocSubdir (str "dragon")
            [⟨0, str "Chapter One", str "text/ch1.xhtml"⟩], 0⟩ []) :=
  c9_pagination_pure.1 docTocSubdir [] 0 7 (str "dragon") 2 1
    [⟨0, str "Chapter One", str "text/ch1.xhtml"⟩] rfl (by decide)

/-! ## Claim C10: the empty query matches every paragraph -/

theorem lowerStr_nil : lowerStr [] = [] := rfl

theorem indexOfSub_nil_pat (s : Str) : indexOfSub s [] = some 0 := by
  cases s <;> simp [indexOfSub, startsWithL]

theorem mkSnippet_zero (para : Str) :
    mkSnippet para 0 0 = str "****" ++ para := by
  simp [mkSnippet, str]

/-- With the empty query, the paragraph loop matches every non-empty
paragraph at position 0 with an empty marked span. -/
theorem searchParagraphs_empty_query (ch : Chapter) (content : Str) :
    searchParagraphs [] ch content =
      (splitChar '\n' content).filterMap (fun para =>
        if para = [] then none
        else some ⟨ch.index, ch.title, str "****" ++ para⟩) := by
  rw [searchParagraphs_eq]
  congr 1
  funext para
  by_cases hp : para = []
  · simp [hp]
  · simp only [if_neg hp, lowerStr_nil, indexOfSub_nil_pat, List.length_nil,
      mkSnippet_zero]

/-- When a chapter's recorded index addresses itself in the rebuilt list,
fetching its content opens its own href. -/
theorem getContent_of_self {d : EpubDoc} {chapters : List Chapter}
    {c : Chapter} (hch : GetEPUBChapters d = .ok chapters)
    (hc : chapters.get? c.index = some c) :
    GetEPUBChapterContent d (Int.ofNat c.index) =
      (match openEntry d c.href with
       | none => .error (str "failed to open chapter")
       | some fc => .ok (extractTextFromHTML fc.asText)) := by
  have hlt : c.index < chapters.length := by
    by_contra hge
    rw [List.get?_eq_none.mpr (by omega)] at hc
    cases hc
  have hcond : ¬((c.index : Int) < 0 ∨
      (chapters.length : Int) ≤ (c.index : Int)) := by
    rintro (hneg | hge) <;> omega
  simp only [GetEPUBChapterContent, Int.ofNat_eq_coe, hch, if_neg hcond,
    Int.toNat_ofNat, hc]

/-- Under dense indices, the empty-query recompute collects one match per
non-empty paragraph of every chapter whose entry opens. -/
theorem computeMatches_empty_query {d : EpubDoc} {chapters : List Chapter}
    (hch : GetEPUBChapters d = .ok chapters)
    (hdense : ∀ p ∈ chapters.enum, p.2.index = p.1) :
    computeMatches d [] chapters = emptyQueryMatches d chapters := by
  have hself : ∀ c ∈ chapters, chapters.get? c.index = some c := by
    intro c hc
    obtain ⟨n, hn⟩ := List.mem_iff_get?.mp hc
    have hmem : ((n, c) : Nat × Chapter) ∈ chapters.enum :=
      List.mem_enum_iff_get?.mpr hn
    have := hdense (n, c) hmem
    simp only at this
    rw [this]
    exact hn
  unfold computeMatches emptyQueryMatches
  suffices H : ∀ (L : List Chapter) (acc : List SearchMatch),
      (∀ c ∈ L, chapters.get? c.index = some c) →
      L.foldl (fun acc ch =>
        match GetEPUBChapterContent d (Int.ofNat ch.index) with
        | .error _ => acc
        | .ok content => acc ++ searchParagraphs [] ch content) acc =
      acc ++ L.flatMap (fun c =>
        match openEntry d c.href with
        | none => []
        | some fc =>
          (splitChar '\n' (extractTextFromHTML fc.asText)).filterMap
            (fun para =>
              if para = [] then none
              else some ⟨c.index, c.title, str "****" ++ para⟩)) by
    simpa using H chapters [] hself
  intro L
  induction L with
  | nil => intro acc _; simp
  | cons c rest ih =>
    intro acc hall
    have hc := hall c (List.mem_cons_self _ _)
    rw [List.foldl_cons, List.flatMap_cons,
      getContent_of_self hch hc]
    rcases hopen : openEntry d c.href with _ | fc
    · simp only
      rw [ih acc (fun x hx => hall x (List.mem_cons_of_mem _ hx))]
      simp
    · simp only
      rw [ih _ (fun x hx => hall x (List.mem_cons_of_mem _ hx)),
        searchParagraphs_empty_query]
      simp [List.append_assoc]

/-- C10 counterexample: on a document with a dangling first spine entry
the emitted chapter carries index 1, `GetEPUBChapterContent` treats that
index as a position in the 1-element rebuilt list and fails, and the
empty-query search returns *no* matches even though the chapter's own
entry is present and its extracted text has a non-empty paragraph —
refuting "one SearchMatch per non-empty paragraph of every readable
chapter". -/
theorem c10_counterexample :
    SearchEPUBContent docDangling [] 0 5 [] 0 0 =
      .ok ([], [((5, []), ⟨[], 0⟩)]) ∧
    GetEPUBChapters docDangling = .ok [⟨1, str "c1", str "c1.xhtml"⟩] ∧
    (openEntry docDangling (str "c1.xhtml")).isSome = true ∧
    extractTextFromHTML (str "Hello world") = str "Hello world" := by
  refine ⟨by decide, by decide, by decide, by decide⟩

/-- C10 amended: restricted to documents whose spine references all
resolve (chapter indices dense, each chapter addressing itself), the
empty-query search is not rejected: with no fresh cache entry it caches
and returns one SearchMatch per non-empty paragraph of every readable
chapter, each snippet being the paragraph with the marker pair around an
empty span at position 0. With dangling spine references the per-chapter
fetch uses the gapped recorded index and can skip or misattribute
chapters. -/
theorem c10_amended :
    ∀ (d : EpubDoc) (cache : Cache) (now : Nat) (bookID : Int)
      (chapters : List Chapter),
      cacheHit cache (bookID, []) now = none →
      GetEPUBChapters d = .ok chapters →
      (∀ p ∈ chapters.enum, p.2.index = p.1) →
      SearchEPUBContent d cache now bookID [] 0 0 =
        .ok (emptyQueryMatches d chapters,
          cacheInsert (bookID, []) ⟨emptyQueryMatches d chapters, now⟩
            cache) := by
  intro d cache now bookID chapters hhit hch hdense
  have hpag : ∀ ms : List SearchMatch, paginate ms 0 0 = ms := by
    intro ms
    unfold paginate
    rw [if_neg (fun hc => absurd hc.1 (by decide))]
    rw [if_neg (by decide : ¬ (0 : Int) > 0)]
    rw [if_neg (fun hc => absurd hc.1 (by decide))]
  simp only [SearchEPUBContent, hhit, hch,
    computeMatches_empty_query hch hdense, hpag]

/-- C10 witness: the amended statement on a concrete document with dense
indices — the empty-query search returns one marked match per non-empty
paragraph. -/
theorem c10_witness :
    SearchEPUBContent docTocSubdir [] 3 9 [] 0 0 =
      .ok (emptyQueryMatches docTocSubdir
          [⟨0, str "Chapter One", str "text/ch1.xhtml"⟩],
        cacheInsert (9, []) ⟨emptyQueryMatches docTocSubdir
          [⟨0, str "Chapter One", str "text/ch1.xhtml"⟩], 3⟩ []) :=
  c10_amended docTocSubdir [] 3 9
    [⟨0, str "Chapter One", str "text/ch1.xhtml"⟩] rfl (by decide)
    (by decide)

end CalibreMCP
